import Mathlib

/-!
Verification of the production-scheduler subsystem of the order-management
backend.  Times are modelled as minutes since an arbitrary epoch (type `Int`,
one hour = 60 minutes), which captures everything the scheduler observes of a
`datetime`: hour flooring, one-hour steps, time-of-day windows, and ordering.
Quantities and capacities are integers, exactly as in the source.

Two scheduler implementations exist in the repository and both are embedded:
the pipelined hour-by-hour simulator `App.schedule_order_operations`
(from `app/scheduler.py`) and the batch-based scheduler
`Core.schedule_order_operations` (from `app/core/scheduler.py`, the one
imported by `app/main.py`).  The yield computation and the deadline
evaluation from `app/main.py` are embedded as `Main.required_input_calc`
and `Main.deadline_eval`.
-/

/-- `ShiftEnum` from `app/models.py`: day = 白班, night = 夜班. -/
inductive Shift where
  | day : Shift
  | night : Shift
deriving DecidableEq, Repr

/-- Minute-of-day in `[0, 1440)`, the `dt.time()` view of an instant. -/
def timeOfDay (t : Int) : Int := Int.emod t 1440

/-- `dt.replace(minute=0, second=0, microsecond=0)`: floor to the hour. -/
def floorHour (t : Int) : Int := t - Int.emod t 60

namespace App

/-- `is_day_shift` from `app/scheduler.py`: DAY_START (08:00 = minute 480)
`<= t <` DAY_END (19:00 = minute 1140). -/
def is_day_shift (t : Int) : Bool :=
  decide (480 ≤ timeOfDay t) && decide (timeOfDay t < 1140)

/-- `is_night_shift` from `app/scheduler.py`: `t >=` NIGHT_START (20:00 = 1200)
or `t <` NIGHT_END (07:00 = 420). -/
def is_night_shift (t : Int) : Bool :=
  decide (1200 ≤ timeOfDay t) || decide (timeOfDay t < 420)

/-- `next_hour` from `app/scheduler.py`. -/
def next_hour (t : Int) : Int := floorHour (t + 60)

/-- `get_shift_for_hour` from `app/scheduler.py`: day if `is_day_shift`,
otherwise night. -/
def get_shift_for_hour (t : Int) : Shift :=
  if is_day_shift t then Shift.day else Shift.night

/-- One per-operation allocation tuple `(hour_start, hour_end, shift, alloc)`
as stored in `allocations_map[name]`. -/
structure OpAlloc where
  hourStart : Int
  hourEnd : Int
  shift : Shift
  qty : Int
deriving DecidableEq, Repr

/-- One flattened allocation tuple
`(hour_start, hour_end, shift, operation_name, allocated)`. -/
structure FlatAlloc where
  hourStart : Int
  hourEnd : Int
  shift : Shift
  opName : String
  qty : Int
deriving DecidableEq, Repr

/-- An operation reference as passed to the scheduler: the dict
`{"name": ..., "pieces_per_hour": ...}` built by `app/main.py`
(`ops_info`); the scheduler itself reads only `op.get("name")`. -/
structure OpInfo where
  name : String
  piecesPerHour : Option Int
deriving DecidableEq, Repr

/-- The mutable simulation state of `schedule_order_operations`:
`processed`, `finished_by_time` and `allocations_map`, each a dict keyed by
operation name (modelled as total functions defaulting to the initial
value, which is what the Python dicts hold for every key they contain). -/
structure PipeState where
  processed : String → Int
  finishedByTime : String → List (Int × Int)
  allocationsMap : String → List OpAlloc

/-- Initial state: every counter 0, every map empty. -/
def initState : PipeState :=
  { processed := fun _ => 0, finishedByTime := fun _ => [], allocationsMap := fun _ => [] }

/-- Pointwise update of a string-keyed map. -/
def updFn {α : Type} (f : String → α) (nm : String) (v : α) : String → α :=
  fun x => if x = nm then v else f x

/-- `sum(count for t, count in finished_by_time[prev].items() if t <= cursor)`. -/
def finishedUpTo (l : List (Int × Int)) (c : Int) : Int :=
  ((l.filter fun e => decide (e.1 ≤ c)).map (fun e => e.2)).sum

/-- `finished_by_time[name].setdefault(finish_time, 0);
finished_by_time[name][finish_time] += alloc` — a Python dict keeps
insertion order, so this either bumps the existing key or appends. -/
def addFinish (l : List (Int × Int)) (t : Int) (n : Int) : List (Int × Int) :=
  match l with
  | [] => [(t, n)]
  | e :: rest => if e.1 = t then (e.1, e.2 + n) :: rest else e :: addFinish rest t n

/-- The body of the inner `for idx, name in enumerate(op_names)` loop for a
single operation: compute the hour capacity, the available input (from the
remaining order quantity for the first operation, from the predecessor's
finished-by-now units otherwise), allocate `min(cap, available)` and record
it when positive. -/
def opStep (cap : String → Int → Int) (qty : Int) (cursor : Int)
    (prev : Option String) (nm : String) (st : PipeState) : PipeState :=
  let c := cap nm cursor
  let available : Int :=
    match prev with
    | none => qty - st.processed nm
    | some p => max 0 (finishedUpTo (st.finishedByTime p) cursor - st.processed nm)
  let alloc := min c available
  if 0 < alloc then
    { processed := updFn st.processed nm (st.processed nm + alloc)
      finishedByTime := updFn st.finishedByTime nm
        (addFinish (st.finishedByTime nm) (cursor + 60) alloc)
      allocationsMap := updFn st.allocationsMap nm
        (st.allocationsMap nm ++
          [{ hourStart := cursor, hourEnd := cursor + 60,
             shift := get_shift_for_hour cursor, qty := alloc }]) }
  else st

/-- The inner loop over `op_names`, threading the previous operation name. -/
def opsPass (cap : String → Int → Int) (qty : Int) (cursor : Int) :
    Option String → List String → PipeState → PipeState
  | _, [], st => st
  | prev, nm :: rest, st =>
      opsPass cap qty cursor (some nm) rest (opStep cap qty cursor prev nm st)

/-- The outer `while cursor < due` loop with its iteration count made
explicit: each iteration runs one `opsPass` at the current cursor and then
advances the cursor by exactly one hour.  `simWhile_eq_simHours` below
proves this equal to the literal while-loop formulation `simWhile`. -/
def simHours (cap : String → Int → Int) (qty : Int) (ops : List String) :
    Nat → Int → PipeState → PipeState
  | 0, _, st => st
  | n + 1, c, st => simHours cap qty ops n (c + 60) (opsPass cap qty c none ops st)

/-- The literal `while cursor < due` loop of `schedule_order_operations`. -/
def simWhile (cap : String → Int → Int) (qty : Int) (ops : List String)
    (due : Int) (c : Int) (st : PipeState) : PipeState :=
  if h : c < due then simWhile cap qty ops due (c + 60) (opsPass cap qty c none ops st)
  else st
termination_by (due - c).toNat
decreasing_by omega

/-- Number of iterations the `while cursor < due` loop performs from
cursor `c`. -/
def iterCount (due : Int) (c : Int) : Nat :=
  if h : c < due then iterCount due (c + 60) + 1 else 0
termination_by (due - c).toNat
decreasing_by omega

/-- Closed form of `iterCount`: `⌈(due - c)/60⌉` when positive, else 0. -/
def numHours (c : Int) (due : Int) : Nat := (due - c + 59).toNat / 60

/-- The flattening step of `schedule_order_operations`: tag every
per-operation allocation tuple with its operation name, in `op_names`
order. -/
def flatten (names : List String) (st : PipeState) : List FlatAlloc :=
  names.flatMap (fun nm =>
    (st.allocationsMap nm).map (fun a =>
      { hourStart := a.hourStart, hourEnd := a.hourEnd, shift := a.shift,
        opName := nm, qty := a.qty }))

/-- Sort predicate used for the final `flat.sort(key=lambda x: (x[0], x[3]))`. -/
def flatLe (a b : FlatAlloc) : Bool :=
  decide (a.hourStart < b.hourStart) ||
    (decide (a.hourStart = b.hourStart) && decide (a.opName ≤ b.opName))

/-- Insert into a sorted list, keeping earlier elements first on ties. -/
def insertLe {α : Type} (le : α → α → Bool) (a : α) : List α → List α
  | [] => [a]
  | b :: l => if le a b then a :: b :: l else b :: insertLe le a l

/-- Stable insertion sort, modelling Python's `list.sort(key=...)` (only
the resulting multiset matters for the properties proved here). -/
def sortBy {α : Type} (le : α → α → Bool) : List α → List α
  | [] => []
  | a :: l => insertLe le a (sortBy le l)

/-- The result dict of `schedule_order_operations`. -/
structure ScheduleResult where
  allocations : List FlatAlloc
  total_allocated : Int
  note : Option String
deriving DecidableEq, Repr

/-- `schedule_order_operations` from `app/scheduler.py`: pipelined,
hour-by-hour forward simulation.  The unused geometry parameters
`length`/`width` of the Python signature are omitted.  The hourly loop runs
for `numHours (floorHour start) due` iterations, which by `iterCount_closed`
and `simWhile_eq_simHours` is exactly the `while cursor < due` loop.
`allocated_on_last` models the truthiness test
`processed[last_op_name] if last_op_name else 0`: both a missing last name
(empty operations list) and an empty-string last name are falsy in Python
and fall back to 0. -/
def schedule_order_operations (start due : Int) (qty : Int)
    (operations : List OpInfo) (cap : String → Int → Int) : ScheduleResult :=
  let op_names := operations.map (fun o => o.name)
  let c0 := floorHour start
  let st := simHours cap qty op_names (numHours c0 due) c0 initState
  let flatSorted := sortBy flatLe (flatten op_names st)
  let lastOp : Option String := op_names.getLast?
  let allocated_on_last : Int :=
    match lastOp with
    | some nm => if nm = "" then 0 else st.processed nm
    | none => 0
  let note : Option String :=
    if allocated_on_last < qty then
      some ("Operation \x27" ++
        (match lastOp with | some nm => nm | none => "None") ++
        "\x27 under-capacity: requested " ++ toString qty ++
        ", allocated " ++ toString allocated_on_last ++ ".")
    else none
  { allocations := flatSorted, total_allocated := allocated_on_last, note := note }

/-- Cumulative quantity operation `nm` has processed in hours starting at
or before `H`, read off a flattened allocation list. -/
def qtyProcessedUpTo (nm : String) (H : Int) (l : List FlatAlloc) : Int :=
  ((l.filter fun a => decide (a.opName = nm) && decide (a.hourStart ≤ H)).map
    (fun a => a.qty)).sum

/-- Cumulative quantity operation `nm` has finished at or before instant
`H` (a unit allocated in an hour is finished at that hour's end), read off
a flattened allocation list. -/
def qtyFinishedUpTo (nm : String) (H : Int) (l : List FlatAlloc) : Int :=
  ((l.filter fun a => decide (a.opName = nm) && decide (a.hourEnd ≤ H)).map
    (fun a => a.qty)).sum

/-- Total quantity allocated to operation `nm` in a flattened list. -/
def sumQtyFor (nm : String) (l : List FlatAlloc) : Int :=
  ((l.filter fun a => decide (a.opName = nm)).map (fun a => a.qty)).sum

/-- Cumulative quantity of a per-operation allocation list in hours
starting at or before `H`. -/
def opQtyUpTo (l : List OpAlloc) (H : Int) : Int :=
  ((l.filter fun a => decide (a.hourStart ≤ H)).map (fun a => a.qty)).sum

/-- Cumulative quantity of a per-operation allocation list finished
(hour end) at or before `H`. -/
def opFinUpTo (l : List OpAlloc) (H : Int) : Int :=
  ((l.filter fun a => decide (a.hourEnd ≤ H)).map (fun a => a.qty)).sum

/-- Every recorded allocation spans one hour ending at or before `b`, is
strictly positive and is within the capacity of its (operation, hour). -/
def EntriesInv (cap : String → Int → Int) (b : Int) (st : PipeState) : Prop :=
  ∀ nm : String, ∀ a ∈ st.allocationsMap nm,
    a.hourEnd = a.hourStart + 60 ∧ a.hourEnd ≤ b ∧ 0 < a.qty ∧
      a.qty ≤ cap nm a.hourStart

/-- `finished_by_time` mirrors `allocations_map` (one key per recorded
hour, in insertion order) and `processed` is the total of
`allocations_map`. -/
def LinkInv (st : PipeState) : Prop :=
  ∀ nm : String,
    st.finishedByTime nm =
      (st.allocationsMap nm).map (fun a => (a.hourEnd, a.qty)) ∧
    st.processed nm = ((st.allocationsMap nm).map (fun a => a.qty)).sum

/-- The precedence relation between one adjacent pair of operations: at
every instant, what `q` has started processing is covered by what `p` has
finished. -/
def PairInv (st : PipeState) (p q : String) : Prop :=
  ∀ H : Int, opQtyUpTo (st.allocationsMap q) H ≤ opFinUpTo (st.allocationsMap p) H

/-- `p` immediately precedes `q` in the operation-name list. -/
def Adjacent (names : List String) (p q : String) : Prop :=
  ∃ l₁ l₂, names = l₁ ++ p :: q :: l₂

/-- The full loop invariant of the hourly simulation with cursor `c`. -/
def SimInv (cap : String → Int → Int) (names : List String) (c : Int)
    (st : PipeState) : Prop :=
  EntriesInv cap c st ∧ LinkInv st ∧
    ∀ p q : String, Adjacent names p q → PairInv st p q

/-- The `prev` value the inner loop carries after traversing a list of
operation names. -/
def lastPrev : List String → Option String → Option String
  | [], prev => prev
  | nm :: rest, _ => lastPrev rest (some nm)

end App

/-- `math.ceil(a / b)` for integers `a` with integer `b > 0`: the exact
rational ceiling `⌈a / b⌉`.  (The Python source divides floats; for the
integer magnitudes involved the float quotient is rounded to the same
ceiling.) -/
def intCeilDiv (a b : Int) : Int := (a + b - 1) / b

namespace Core

/-- `get_shift_for_hour` from `app/core/scheduler.py` (datetime branch):
白班 (day) iff `8 <= dt.hour < 20`, otherwise 夜班 (night). -/
def get_shift_for_hour (t : Int) : Shift :=
  if 8 ≤ timeOfDay t / 60 ∧ timeOfDay t / 60 < 20 then Shift.day
  else Shift.night

/-- The local state of the batch loop in `core/scheduler.py`'s
`schedule_order_operations`: the accumulated `allocations` list, the
per-operation `current_times` list and the `processed` counter. -/
structure CoreState where
  allocations : List App.FlatAlloc
  currentTimes : List Int
  processed : Int

/-- The inner `for i, op_info in enumerate(operations)` loop of one batch:
for each operation (paired with its resolved `pieces_per_hour`) and its
current start time, emit one allocation record spanning
`ceil(batch / pieces_per_hour)` hours and move that operation's clock to
the record's end. -/
def corePassAux (batch : Int) :
    List (String × Int) → List Int → List App.FlatAlloc × List Int
  | [], _ => ([], [])
  | _ :: _, [] => ([], [])
  | (nm, pph) :: rest, t :: ts =>
      let hours := intCeilDiv batch pph
      let endT := t + 60 * hours
      let p := corePassAux batch rest ts
      ({ hourStart := t, hourEnd := endT, shift := get_shift_for_hour t,
         opName := nm, qty := batch } :: p.1, endT :: p.2)

/-- One iteration of the `while processed < required_input` loop:
`batch = min(batch_size, required_input - processed)` with
`batch_size = 100`, then the per-operation pass, then
`processed += batch`. -/
def batchStep (required : Int) (opsCaps : List (String × Int))
    (st : CoreState) : CoreState :=
  let batch := min 100 (required - st.processed)
  let p := corePassAux batch opsCaps st.currentTimes
  { allocations := st.allocations ++ p.1, currentTimes := p.2,
    processed := st.processed + batch }

/-- The `while processed < required_input` loop with an explicit fuel;
`required.toNat` units of fuel always suffice because each iteration
processes at least one unit (`coreIter_eq_coreWhile` below). -/
def coreIter (required : Int) (opsCaps : List (String × Int)) :
    Nat → CoreState → CoreState
  | 0, st => st
  | n + 1, st =>
      if st.processed < required then
        coreIter required opsCaps n (batchStep required opsCaps st)
      else st

/-- The literal `while processed < required_input` loop. -/
def coreWhile (required : Int) (opsCaps : List (String × Int))
    (st : CoreState) : CoreState :=
  if _h : st.processed < required then
    coreWhile required opsCaps (batchStep required opsCaps st)
  else st
termination_by (required - st.processed).toNat
decreasing_by simp only [batchStep]; omega

/-- The result dict of `core/scheduler.py`'s `schedule_order_operations`. -/
structure CoreResult where
  allocations : List App.FlatAlloc
  total_allocated : Int
  meets_due : Bool
  expected_completion : Option Int
  meets_due_estimate : Bool
deriving DecidableEq, Repr

/-- `schedule_order_operations` from `app/core/scheduler.py`, the
implementation imported by `app/main.py`: batch-based, capacity resolved
once per operation at `start` (defaulting to 10 when non-positive), loop
driven by the required quantity rather than by the `[start, due)` window.
The capacity argument is the two-argument callable `main.py` passes, which
returns a number, so the runtime type-probing branches of the source
collapse to a single call.  The unused geometry parameters are omitted. -/
def schedule_order_operations (start due : Int) (required_input : Int)
    (operations : List App.OpInfo) (cap : String → Int → Int) : CoreResult :=
  if operations.isEmpty then
    { allocations := [], total_allocated := 0, meets_due := true,
      expected_completion := some start, meets_due_estimate := true }
  else
    let opsCaps := operations.map (fun o =>
      (o.name, let p := cap o.name start; if p ≤ 0 then 10 else p))
    let st0 : CoreState :=
      { allocations := [], currentTimes := List.replicate operations.length start,
        processed := 0 }
    let st := coreIter required_input opsCaps required_input.toNat st0
    let total := (st.allocations.map (fun a => a.qty)).sum
    let finalCompletion := st.currentTimes.getLastD start
    { allocations := st.allocations, total_allocated := total,
      meets_due := decide (finalCompletion ≤ due),
      expected_completion :=
        if finalCompletion ≤ due then some finalCompletion else none,
      meets_due_estimate := decide (finalCompletion ≤ due) }

end Core

namespace Main

/-- The yield-adjusted input computation in `ui_create_order` /
`view_order_schedule` (`app/main.py`): if `estimated_yield` is present and
positive, `required_input = ceil(quantity / (estimated_yield / 100))`,
otherwise `required_input = quantity`.  The Python guard
`if order.estimated_yield and order.estimated_yield > 0` only adds the
exclusion of `None` and of `0`, which the `> 0` test subsumes.  The yield
percentage is modelled as an exact rational. -/
def required_input_calc (quantity : Int) (estimated_yield : Option ℚ) : Int :=
  match estimated_yield with
  | some y => if 0 < y then Int.ceil ((quantity : ℚ) / (y / 100)) else quantity
  | none => quantity

/-- The deadline flags computed in `app/main.py` after scheduling. -/
structure DeadlineResult where
  meets_due : Bool
  expected_completion : Option Int
  meets_due_estimate : Bool
deriving DecidableEq, Repr

/-- Python `max(list)` over a non-empty list, `None` when empty. -/
def pyMax (l : List Int) : Option Int :=
  l.foldl (fun acc t =>
    match acc with
    | none => some t
    | some m => some (max m t)) none

/-- The deadline evaluation from `app/main.py` (identical in
`ui_create_order` and `view_order_schedule`): `meets_due` iff the schedule
allocated the full required input; otherwise extrapolate with the last
operation's declared pieces-per-hour from the latest allocation end of the
last operation (or from the window start when it has no allocations). -/
def deadline_eval (total_allocated required_input : Int)
    (allocations : List App.FlatAlloc) (ops_info : List App.OpInfo)
    (start due : Int) : DeadlineResult :=
  if required_input ≤ total_allocated then
    { meets_due := true, expected_completion := none, meets_due_estimate := true }
  else
    let remaining := required_input - total_allocated
    let last_op_name : Option String := (ops_info.getLast?).map (fun o => o.name)
    let last_op_pph : Option Int :=
      (ops_info.find? (fun o => decide (some o.name = last_op_name))).bind
        (fun o => o.piecesPerHour)
    let last_op_ends :=
      (allocations.filter (fun a => decide (some a.opName = last_op_name))).map
        (fun a => a.hourEnd)
    let last_alloc_end := pyMax last_op_ends
    match last_op_pph with
    | some p =>
        if 0 < p then
          let hours_needed := intCeilDiv remaining p
          let base :=
            match last_alloc_end with
            | some b => b
            | none => start
          { meets_due := false,
            expected_completion := some (base + 60 * hours_needed),
            meets_due_estimate := decide (base + 60 * hours_needed ≤ due) }
        else
          { meets_due := false, expected_completion := none,
            meets_due_estimate := false }
    | none =>
        { meets_due := false, expected_completion := none,
          meets_due_estimate := false }

end Main

namespace App

/-- The while-loop iteration count has the closed form `numHours`:
`⌈(due - c)/60⌉` hours when `c < due`, and 0 otherwise. -/
theorem iterCount_closed (due c : Int) : iterCount due c = numHours c due := by
  unfold iterCount
  split
  case isTrue h =>
    rw [iterCount_closed due (c + 60)]
    unfold numHours
    have h1 : (due - c + 59).toNat = (due - (c + 60) + 59).toNat + 60 := by omega
    rw [h1, Nat.add_div_right _ (by norm_num)]
  case isFalse h =>
    unfold numHours
    rw [Nat.div_eq_of_lt (by omega)]
termination_by (due - c).toNat
decreasing_by omega

/-- The literal while loop equals the fuelled loop run for `iterCount`
iterations: the cursor advances exactly one hour per iteration and the
loop terminates after `iterCount due c` iterations. -/
theorem simWhile_eq_simHours (cap : String → Int → Int) (qty : Int)
    (ops : List String) (due c : Int) (st : PipeState) :
    simWhile cap qty ops due c st =
      simHours cap qty ops (iterCount due c) c st := by
  by_cases h : c < due
  · rw [simWhile, iterCount]
    simp only [dif_pos h]
    exact simWhile_eq_simHours cap qty ops due (c + 60) (opsPass cap qty c none ops st)
  · rw [simWhile, iterCount]
    simp only [dif_neg h]
    rfl
termination_by (due - c).toNat
decreasing_by omega

/-- A single operation step never decreases any `processed` counter. -/
theorem opStep_processed_le (cap : String → Int → Int) (qty cursor : Int)
    (prev : Option String) (nm : String) (st : PipeState) (x : String) :
    st.processed x ≤ (opStep cap qty cursor prev nm st).processed x := by
  simp only [opStep]
  split
  case isTrue h =>
    simp only [updFn]
    split
    case isTrue hx => subst hx; omega
    case isFalse hx => exact le_refl _
  case isFalse h => exact le_refl _

/-- A full hourly pass never decreases any `processed` counter. -/
theorem opsPass_processed_le (cap : String → Int → Int) (qty cursor : Int)
    (prev : Option String) (l : List String) (st : PipeState) (x : String) :
    st.processed x ≤ (opsPass cap qty cursor prev l st).processed x := by
  induction l generalizing prev st with
  | nil => exact le_refl _
  | cons nm rest ih =>
      exact le_trans (opStep_processed_le cap qty cursor prev nm st x)
        (ih (some nm) (opStep cap qty cursor prev nm st))

/-- Simulating any number of hours never decreases a `processed` counter. -/
theorem simHours_processed_le (cap : String → Int → Int) (qty : Int)
    (ops : List String) (n : Nat) (c : Int) (st : PipeState) (x : String) :
    st.processed x ≤ (simHours cap qty ops n c st).processed x := by
  induction n generalizing c st with
  | zero => exact le_refl _
  | succ n ih =>
      exact le_trans (opsPass_processed_le cap qty c none ops st x)
        (ih (c + 60) (opsPass cap qty c none ops st))

/-- More fuel never decreases a `processed` counter. -/
theorem simHours_processed_mono (cap : String → Int → Int) (qty : Int)
    (ops : List String) (n m : Nat) (hnm : n ≤ m) (c : Int) (st : PipeState)
    (x : String) :
    (simHours cap qty ops n c st).processed x ≤
      (simHours cap qty ops m c st).processed x := by
  induction n generalizing c st m with
  | zero => exact simHours_processed_le cap qty ops m c st x
  | succ n ih =>
      match m, hnm with
      | m + 1, hnm =>
          exact ih m (Nat.le_of_succ_le_succ hnm) (c + 60)
            (opsPass cap qty c none ops st)

/-- `numHours` is monotone in the due instant. -/
theorem numHours_mono (c due₁ due₂ : Int) (h : due₁ ≤ due₂) :
    numHours c due₁ ≤ numHours c due₂ :=
  Nat.div_le_div_right (Int.toNat_le_toNat (by omega))

theorem opQtyUpTo_nil (H : Int) : opQtyUpTo [] H = 0 := rfl

theorem opFinUpTo_nil (H : Int) : opFinUpTo [] H = 0 := rfl

theorem opQtyUpTo_cons (a : OpAlloc) (l : List OpAlloc) (H : Int) :
    opQtyUpTo (a :: l) H =
      (if a.hourStart ≤ H then a.qty else 0) + opQtyUpTo l H := by
  by_cases h : a.hourStart ≤ H <;> simp [opQtyUpTo, List.filter_cons, h]

theorem opFinUpTo_cons (a : OpAlloc) (l : List OpAlloc) (H : Int) :
    opFinUpTo (a :: l) H =
      (if a.hourEnd ≤ H then a.qty else 0) + opFinUpTo l H := by
  by_cases h : a.hourEnd ≤ H <;> simp [opFinUpTo, List.filter_cons, h]

theorem opQtyUpTo_append (l : List OpAlloc) (a : OpAlloc) (H : Int) :
    opQtyUpTo (l ++ [a]) H =
      opQtyUpTo l H + (if a.hourStart ≤ H then a.qty else 0) := by
  induction l with
  | nil => simp [opQtyUpTo_cons, opQtyUpTo_nil]
  | cons b l ih => simp only [List.cons_append, opQtyUpTo_cons, ih]; ring

theorem opFinUpTo_append (l : List OpAlloc) (a : OpAlloc) (H : Int) :
    opFinUpTo (l ++ [a]) H =
      opFinUpTo l H + (if a.hourEnd ≤ H then a.qty else 0) := by
  induction l with
  | nil => simp [opFinUpTo_cons, opFinUpTo_nil]
  | cons b l ih => simp only [List.cons_append, opFinUpTo_cons, ih]; ring

/-- With positive quantities, the finished-by prefix sum is monotone in
the time bound. -/
theorem opFinUpTo_mono (l : List OpAlloc) (h : ∀ a ∈ l, 0 < a.qty)
    (H₁ H₂ : Int) (hH : H₁ ≤ H₂) : opFinUpTo l H₁ ≤ opFinUpTo l H₂ := by
  induction l with
  | nil => simp [opFinUpTo_nil]
  | cons a l ih =>
      have ha := h a (List.mem_cons_self a l)
      have ihh := ih (fun b hb => h b (List.mem_cons_of_mem _ hb))
      rw [opFinUpTo_cons, opFinUpTo_cons]
      by_cases h1 : a.hourEnd ≤ H₁
      · rw [if_pos h1, if_pos (le_trans h1 hH)]; omega
      · rw [if_neg h1]
        by_cases h2 : a.hourEnd ≤ H₂
        · rw [if_pos h2]; omega
        · rw [if_neg h2]; omega

/-- When every entry starts at or before `H`, the prefix sum is the total. -/
theorem opQtyUpTo_eq_total (l : List OpAlloc) (H : Int)
    (h : ∀ a ∈ l, a.hourStart ≤ H) :
    opQtyUpTo l H = (l.map (fun a => a.qty)).sum := by
  induction l with
  | nil => simp [opQtyUpTo_nil]
  | cons a l ih =>
      rw [opQtyUpTo_cons, if_pos (h a (List.mem_cons_self a l))]
      rw [ih (fun b hb => h b (List.mem_cons_of_mem _ hb))]
      simp

theorem finishedUpTo_nil (c : Int) : finishedUpTo [] c = 0 := rfl

theorem finishedUpTo_cons (e : Int × Int) (l : List (Int × Int)) (c : Int) :
    finishedUpTo (e :: l) c =
      (if e.1 ≤ c then e.2 else 0) + finishedUpTo l c := by
  by_cases h : e.1 ≤ c <;> simp [finishedUpTo, List.filter_cons, h]

/-- Registering `n` units finishing at `t` adds `n` to the finished-by-`c`
sum exactly when `t ≤ c`. -/
theorem finishedUpTo_addFinish (l : List (Int × Int)) (t n c : Int) :
    finishedUpTo (addFinish l t n) c =
      finishedUpTo l c + (if t ≤ c then n else 0) := by
  induction l with
  | nil => simp [addFinish, finishedUpTo_cons, finishedUpTo_nil]
  | cons e l ih =>
      rw [addFinish]
      by_cases he : e.1 = t
      · rw [if_pos he, finishedUpTo_cons, finishedUpTo_cons, he]
        by_cases h : t ≤ c
        · simp [h]; ring
        · simp [h]
      · rw [if_neg he, finishedUpTo_cons, finishedUpTo_cons, ih]
        ring

/-- The mirror of `allocations_map` inside `finished_by_time` has the same
prefix sums. -/
theorem finishedUpTo_map (l : List OpAlloc) (c : Int) :
    finishedUpTo (l.map (fun a => (a.hourEnd, a.qty))) c = opFinUpTo l c := by
  induction l with
  | nil => rfl
  | cons a l ih => simp only [List.map_cons, finishedUpTo_cons, opFinUpTo_cons, ih]

/-- If a key is not present, `addFinish` appends. -/
theorem addFinish_eq_append (l : List (Int × Int)) (t n : Int)
    (h : ∀ e ∈ l, e.1 ≠ t) : addFinish l t n = l ++ [(t, n)] := by
  induction l with
  | nil => rfl
  | cons e l ih =>
      rw [addFinish, if_neg (h e (List.mem_cons_self e l))]
      rw [ih (fun x hx => h x (List.mem_cons_of_mem _ hx))]
      rfl

/-- Characterization of a single operation step: either nothing happens,
or some positive `alloc` within capacity and within the available input is
recorded in all three state components. -/
theorem opStep_spec (cap : String → Int → Int) (qty cursor : Int)
    (prev : Option String) (nm : String) (st : PipeState) :
    opStep cap qty cursor prev nm st = st ∨
    ∃ alloc : Int, 0 < alloc ∧ alloc ≤ cap nm cursor ∧
      (∀ p, prev = some p →
        st.processed nm + alloc ≤ finishedUpTo (st.finishedByTime p) cursor) ∧
      (prev = none → st.processed nm + alloc ≤ qty) ∧
      (opStep cap qty cursor prev nm st).processed =
        updFn st.processed nm (st.processed nm + alloc) ∧
      (opStep cap qty cursor prev nm st).finishedByTime =
        updFn st.finishedByTime nm
          (addFinish (st.finishedByTime nm) (cursor + 60) alloc) ∧
      (opStep cap qty cursor prev nm st).allocationsMap =
        updFn st.allocationsMap nm
          (st.allocationsMap nm ++
            [{ hourStart := cursor, hourEnd := cursor + 60,
               shift := get_shift_for_hour cursor, qty := alloc }]) := by
  cases prev with
  | none =>
      simp only [opStep]
      split
      case isTrue h =>
        right
        exact ⟨_, h, min_le_left _ _, fun p hp => Option.noConfusion hp,
          fun _ => by omega, rfl, rfl, rfl⟩
      case isFalse h => exact Or.inl rfl
  | some p =>
      simp only [opStep]
      split
      case isTrue h =>
        right
        refine ⟨_, h, min_le_left _ _, ?_, fun hp => Option.noConfusion hp,
          rfl, rfl, rfl⟩
        intro x hx
        obtain rfl : p = x := Option.some_injective _ hx
        omega
      case isFalse h => exact Or.inl rfl

/-- A step for operation `nm` leaves every other operation untouched. -/
theorem opStep_ne (cap : String → Int → Int) (qty cursor : Int)
    (prev : Option String) (nm : String) (st : PipeState) (x : String)
    (hx : x ≠ nm) :
    (opStep cap qty cursor prev nm st).processed x = st.processed x ∧
    (opStep cap qty cursor prev nm st).finishedByTime x = st.finishedByTime x ∧
    (opStep cap qty cursor prev nm st).allocationsMap x = st.allocationsMap x := by
  simp only [opStep]
  split <;> simp [updFn, hx]

/-- A pass over names not containing `x` leaves `x` untouched. -/
theorem opsPass_not_mem (cap : String → Int → Int) (qty cursor : Int)
    (prev : Option String) (l : List String) (st : PipeState) (x : String)
    (hx : x ∉ l) :
    (opsPass cap qty cursor prev l st).processed x = st.processed x ∧
    (opsPass cap qty cursor prev l st).finishedByTime x = st.finishedByTime x ∧
    (opsPass cap qty cursor prev l st).allocationsMap x = st.allocationsMap x := by
  induction l generalizing prev st with
  | nil => exact ⟨rfl, rfl, rfl⟩
  | cons nm rest ih =>
      have hxnm : x ≠ nm := fun hh => hx (hh ▸ List.mem_cons_self nm rest)
      have hxr : x ∉ rest := fun hh => hx (List.mem_cons_of_mem _ hh)
      have h1 := opStep_ne cap qty cursor prev nm st x hxnm
      have h2 := ih (some nm) (opStep cap qty cursor prev nm st) hxr
      exact ⟨h2.1.trans h1.1, h2.2.1.trans h1.2.1, h2.2.2.trans h1.2.2⟩

/-- Splitting a pass at a list split point. -/
theorem opsPass_append (cap : String → Int → Int) (qty cursor : Int)
    (xs ys : List String) (prev : Option String) (st : PipeState) :
    opsPass cap qty cursor prev (xs ++ ys) st =
      opsPass cap qty cursor (lastPrev xs prev) ys
        (opsPass cap qty cursor prev xs st) := by
  induction xs generalizing prev st with
  | nil => rfl
  | cons nm rest ih =>
      simp only [List.cons_append, opsPass, lastPrev]
      exact ih (some nm) (opStep cap qty cursor prev nm st)

theorem updFn_self {α : Type} (f : String → α) (nm : String) (v : α) :
    updFn f nm v nm = v := by
  simp [updFn]

theorem updFn_ne {α : Type} (f : String → α) (nm : String) (v : α)
    (x : String) (hx : x ≠ nm) : updFn f nm v x = f x := by
  simp [updFn, hx]

theorem EntriesInv_mono (cap : String → Int → Int) (b₁ b₂ : Int)
    (st : PipeState) (h : EntriesInv cap b₁ st) (hb : b₁ ≤ b₂) :
    EntriesInv cap b₂ st := by
  intro nm a ha
  obtain ⟨h1, h2, h3, h4⟩ := h nm a ha
  exact ⟨h1, le_trans h2 hb, h3, h4⟩

theorem opStep_entries (cap : String → Int → Int) (qty cursor : Int)
    (prev : Option String) (nm : String) (st : PipeState) (b : Int)
    (h : EntriesInv cap b st) (hc : cursor + 60 ≤ b) :
    EntriesInv cap b (opStep cap qty cursor prev nm st) := by
  rcases opStep_spec cap qty cursor prev nm st with heq | ⟨alloc, hpos, hcap, _, _, _, _, hA⟩
  · rw [heq]; exact h
  · intro x a ha
    rw [hA] at ha
    by_cases hx : x = nm
    · rw [hx, updFn_self] at ha
      rcases List.mem_append.mp ha with h3 | h3
      · rw [hx]
        exact h nm a h3
      · obtain rfl := List.mem_singleton.mp h3
        rw [hx]
        exact ⟨rfl, hc, hpos, hcap⟩
    · rw [updFn_ne _ _ _ _ hx] at ha
      exact h x a ha

theorem opsPass_entries (cap : String → Int → Int) (qty cursor : Int)
    (prev : Option String) (l : List String) (st : PipeState) (b : Int)
    (h : EntriesInv cap b st) (hc : cursor + 60 ≤ b) :
    EntriesInv cap b (opsPass cap qty cursor prev l st) := by
  induction l generalizing prev st with
  | nil => exact h
  | cons nm rest ih =>
      exact ih (some nm) _ (opStep_entries cap qty cursor prev nm st b h hc)

theorem simHours_entries (cap : String → Int → Int) (qty : Int)
    (ops : List String) (n : Nat) (c : Int) (st : PipeState)
    (h : EntriesInv cap c st) :
    EntriesInv cap (c + 60 * n) (simHours cap qty ops n c st) := by
  induction n generalizing c st with
  | zero => simpa using h
  | succ n ih =>
      have h1 : EntriesInv cap (c + 60) st := EntriesInv_mono cap c _ st h (by omega)
      have h2 := opsPass_entries cap qty c none ops st (c + 60) h1 (le_refl _)
      have h3 := ih (c + 60) (opsPass cap qty c none ops st) h2
      exact EntriesInv_mono cap _ _ _ h3 (by push_cast; omega)

theorem opStep_link (cap : String → Int → Int) (qty cursor : Int)
    (prev : Option String) (nm : String) (st : PipeState)
    (hb : ∀ a ∈ st.allocationsMap nm, a.hourEnd ≤ cursor)
    (h : LinkInv st) : LinkInv (opStep cap qty cursor prev nm st) := by
  rcases opStep_spec cap qty cursor prev nm st with heq | ⟨alloc, _, _, _, _, hP, hF, hA⟩
  · rw [heq]; exact h
  · intro x
    by_cases hx : x = nm
    · subst hx
      constructor
      · rw [hF, hA, updFn_self, updFn_self]
        rw [(h x).1]
        rw [addFinish_eq_append _ _ _ (by
          intro e he
          simp only [List.mem_map] at he
          obtain ⟨a, ha, rfl⟩ := he
          have := hb a ha
          omega)]
        simp
      · rw [hP, hA, updFn_self, updFn_self]
        rw [(h x).2]
        simp
    · constructor
      · rw [hF, hA, updFn_ne _ _ _ _ hx, updFn_ne _ _ _ _ hx]
        exact (h x).1
      · rw [hP, hA, updFn_ne _ _ _ _ hx, updFn_ne _ _ _ _ hx]
        exact (h x).2

/-- The precedence invariant for the pair `(p, q)` is preserved by the two
successive steps that process `p` and then `q` within one hour, provided
the state entering the hour is well formed at the `p` and `q` components. -/
theorem twoStep_pair (cap : String → Int → Int) (qty c : Int)
    (prevp : Option String) (p q : String) (st : PipeState)
    (hpq : p ≠ q)
    (hentp : ∀ a ∈ st.allocationsMap p,
      a.hourEnd = a.hourStart + 60 ∧ a.hourEnd ≤ c ∧ 0 < a.qty)
    (hentq : ∀ a ∈ st.allocationsMap q,
      a.hourEnd = a.hourStart + 60 ∧ a.hourEnd ≤ c ∧ 0 < a.qty)
    (hlinkp : st.finishedByTime p =
      (st.allocationsMap p).map (fun a => (a.hourEnd, a.qty)))
    (hlinkq : st.processed q = ((st.allocationsMap q).map (fun a => a.qty)).sum)
    (hpair : PairInv st p q) :
    PairInv (opStep cap qty c (some p) q (opStep cap qty c prevp p st)) p q := by
  have hfacts :
      (opStep cap qty c prevp p st).allocationsMap q = st.allocationsMap q ∧
      (opStep cap qty c prevp p st).processed q = st.processed q ∧
      finishedUpTo ((opStep cap qty c prevp p st).finishedByTime p) c
        = opFinUpTo (st.allocationsMap p) c ∧
      (∀ H, opFinUpTo (st.allocationsMap p) H ≤
         opFinUpTo ((opStep cap qty c prevp p st).allocationsMap p) H) := by
    rcases opStep_spec cap qty c prevp p st with hp | ⟨ap, happos, _, _, _, hPp, hFp, hAp⟩
    · rw [hp]
      refine ⟨rfl, rfl, ?_, fun H => le_refl _⟩
      rw [hlinkp, finishedUpTo_map]
    · refine ⟨?_, ?_, ?_, ?_⟩
      · rw [hAp, updFn_ne _ _ _ _ hpq.symm]
      · rw [hPp, updFn_ne _ _ _ _ hpq.symm]
      · rw [hFp, updFn_self, finishedUpTo_addFinish, hlinkp, finishedUpTo_map,
          if_neg (by omega), add_zero]
      · intro H
        rw [hAp, updFn_self, opFinUpTo_append]
        dsimp only
        split <;> omega
  obtain ⟨hAq1, hPq1, hFP1, hMono1⟩ := hfacts
  intro H
  rcases opStep_spec cap qty c (some p) q (opStep cap qty c prevp p st) with
    hq | ⟨aq, haqpos, _, hqle, _, _, _, hAq⟩
  · rw [hq, hAq1]
    exact le_trans (hpair H) (hMono1 H)
  · rw [hAq, updFn_self, updFn_ne _ _ _ _ hpq, hAq1]
    have hle : st.processed q + aq ≤ opFinUpTo (st.allocationsMap p) c := by
      have h5 := hqle p rfl
      rw [hPq1, hFP1] at h5
      exact h5
    rw [opQtyUpTo_append]
    dsimp only
    by_cases hH : c ≤ H
    · rw [if_pos hH]
      have hAtot : opQtyUpTo (st.allocationsMap q) H = st.processed q := by
        rw [hlinkq]
        exact opQtyUpTo_eq_total _ _ (fun a ha => by
          obtain ⟨e1, e2, _⟩ := hentq a ha
          omega)
      have hc2 : opFinUpTo (st.allocationsMap p) c ≤ opFinUpTo (st.allocationsMap p) H :=
        opFinUpTo_mono _ (fun a ha => (hentp a ha).2.2) c H hH
      have hm := hMono1 H
      omega
    · rw [if_neg hH]
      have h6 := hpair H
      have h7 := hMono1 H
      omega

theorem opsPass_link (cap : String → Int → Int) (qty cursor : Int)
    (prev : Option String) (l : List String) (st : PipeState)
    (hnd : l.Nodup)
    (hb : ∀ nm ∈ l, ∀ a ∈ st.allocationsMap nm, a.hourEnd ≤ cursor)
    (h : LinkInv st) : LinkInv (opsPass cap qty cursor prev l st) := by
  induction l generalizing prev st with
  | nil => exact h
  | cons nm rest ih =>
      have hstep := opStep_link cap qty cursor prev nm st
        (hb nm (List.mem_cons_self nm rest)) h
      refine ih (some nm) _ (List.Nodup.of_cons hnd) ?_ hstep
      intro x hx a ha
      have hxnm : x ≠ nm := by
        intro hh
        subst hh
        exact (List.nodup_cons.mp hnd).1 hx
      rw [(opStep_ne cap qty cursor prev nm st x hxnm).2.2] at ha
      exact hb x (List.mem_cons_of_mem _ hx) a ha

/-- The precedence invariant for an adjacent pair survives a full hourly
pass over a duplicate-free name list. -/
theorem opsPass_pair (cap : String → Int → Int) (qty c : Int)
    (l₁ l₂ : List String) (p q : String) (st : PipeState)
    (hnd : (l₁ ++ p :: q :: l₂).Nodup)
    (hent : EntriesInv cap c st)
    (hlink : LinkInv st)
    (hpair : PairInv st p q) :
    PairInv (opsPass cap qty c none (l₁ ++ p :: q :: l₂) st) p q := by
  rcases List.nodup_append.mp hnd with ⟨_, h2, hdisj⟩
  rcases List.nodup_cons.mp h2 with ⟨hp2, h3⟩
  rcases List.nodup_cons.mp h3 with ⟨hq2, _⟩
  have hpq : p ≠ q := fun hh => hp2 (hh ▸ List.mem_cons_self q l₂)
  have hpl2 : p ∉ l₂ := fun hh => hp2 (List.mem_cons_of_mem _ hh)
  have hpl1 : p ∉ l₁ := fun hh => hdisj hh (List.mem_cons_self p _)
  have hql1 : q ∉ l₁ :=
    fun hh => hdisj hh (List.mem_cons_of_mem _ (List.mem_cons_self q _))
  rw [opsPass_append]
  obtain ⟨hP1p, hF1p, hA1p⟩ := opsPass_not_mem cap qty c none l₁ st p hpl1
  obtain ⟨hP1q, hF1q, hA1q⟩ := opsPass_not_mem cap qty c none l₁ st q hql1
  show PairInv (opsPass cap qty c (some q) l₂
    (opStep cap qty c (some p) q
      (opStep cap qty c (lastPrev l₁ none) p (opsPass cap qty c none l₁ st)))) p q
  intro H
  obtain ⟨_, _, hA2p⟩ := opsPass_not_mem cap qty c (some q) l₂
    (opStep cap qty c (some p) q
      (opStep cap qty c (lastPrev l₁ none) p (opsPass cap qty c none l₁ st)))
    p hpl2
  obtain ⟨_, _, hA2q⟩ := opsPass_not_mem cap qty c (some q) l₂
    (opStep cap qty c (some p) q
      (opStep cap qty c (lastPrev l₁ none) p (opsPass cap qty c none l₁ st)))
    q hq2
  rw [hA2p, hA2q]
  refine twoStep_pair cap qty c (lastPrev l₁ none) p q
    (opsPass cap qty c none l₁ st) hpq ?_ ?_ ?_ ?_ ?_ H
  · rw [hA1p]
    exact fun a ha =>
      ⟨(hent p a ha).1, (hent p a ha).2.1, (hent p a ha).2.2.1⟩
  · rw [hA1q]
    exact fun a ha =>
      ⟨(hent q a ha).1, (hent q a ha).2.1, (hent q a ha).2.2.1⟩
  · rw [hF1p, hA1p]
    exact (hlink p).1
  · rw [hP1q, hA1q]
    exact (hlink q).2
  · intro H2
    rw [hA1p, hA1q]
    exact hpair H2

/-- One hourly pass preserves the full simulation invariant, advancing the
entry bound by one hour. -/
theorem opsPass_SimInv (cap : String → Int → Int) (qty c : Int)
    (names : List String) (st : PipeState) (hnd : names.Nodup)
    (h : SimInv cap names c st) :
    SimInv cap names (c + 60) (opsPass cap qty c none names st) := by
  obtain ⟨hent, hlink, hpair⟩ := h
  refine ⟨?_, ?_, ?_⟩
  · exact opsPass_entries cap qty c none names st (c + 60)
      (EntriesInv_mono cap c (c + 60) st hent (by omega)) (le_refl _)
  · exact opsPass_link cap qty c none names st hnd
      (fun nm _ a ha => (hent nm a ha).2.1) hlink
  · intro p q hadj
    obtain ⟨l₁, l₂, rfl⟩ := hadj
    exact opsPass_pair cap qty c l₁ l₂ p q st hnd hent hlink
      (hpair p q ⟨l₁, l₂, rfl⟩)

/-- The simulation invariant holds after any number of simulated hours. -/
theorem simHours_SimInv (cap : String → Int → Int) (qty : Int)
    (names : List String) (n : Nat) (c : Int) (st : PipeState)
    (hnd : names.Nodup) (h : SimInv cap names c st) :
    SimInv cap names (c + 60 * (n : Int)) (simHours cap qty names n c st) := by
  induction n generalizing c st with
  | zero => simpa using h
  | succ n ih =>
      have h1 := opsPass_SimInv cap qty c names st hnd h
      have h2 := ih (c + 60) (opsPass cap qty c none names st) h1
      obtain ⟨e, l, pr⟩ := h2
      exact ⟨EntriesInv_mono cap _ _ _ e (by push_cast; omega), l, pr⟩

/-- The simulation invariant holds initially. -/
theorem SimInv_init (cap : String → Int → Int) (names : List String)
    (c : Int) : SimInv cap names c initState := by
  refine ⟨?_, ?_, ?_⟩
  · intro nm a ha
    exact absurd ha (List.not_mem_nil a)
  · intro nm
    exact ⟨rfl, rfl⟩
  · intro p q _ H
    exact le_refl 0

/-- Filtered quantity sum over one tagged segment of the flattened list:
only the segment of `nm` itself contributes. -/
theorem flatten_seg_sum (x nm : String) (l : List OpAlloc)
    (P : FlatAlloc → Bool) (Q : OpAlloc → Bool)
    (hPQ : ∀ a : OpAlloc,
      P { hourStart := a.hourStart, hourEnd := a.hourEnd, shift := a.shift,
          opName := x, qty := a.qty } = Q a) :
    (((l.map (fun a =>
        ({ hourStart := a.hourStart, hourEnd := a.hourEnd, shift := a.shift,
           opName := x, qty := a.qty } : FlatAlloc))).filter
        (fun a => decide (a.opName = nm) && P a)).map (fun a => a.qty)).sum
      = if x = nm then ((l.filter Q).map (fun a => a.qty)).sum else 0 := by
  induction l with
  | nil => by_cases hx : x = nm <;> simp [hx]
  | cons a l ih =>
      by_cases hx : x = nm
      · subst hx
        by_cases hQ : Q a = true
        · simp [List.filter_cons, hPQ a, hQ, ih]
        · simp [List.filter_cons, hPQ a, hQ, ih]
      · simp [List.filter_cons, hx, ih]

/-- Filtered quantity sums over a flattened list vanish for an absent
operation name. -/
theorem flatten_sum_not_mem (names : List String) (st : PipeState)
    (nm : String) (P : FlatAlloc → Bool) (hmem : nm ∉ names) :
    (((flatten names st).filter
        (fun a => decide (a.opName = nm) && P a)).map (fun a => a.qty)).sum = 0 := by
  induction names with
  | nil => rfl
  | cons x rest ih =>
      have hx : x ≠ nm := fun hh => hmem (hh ▸ List.mem_cons_self x rest)
      have hrest : nm ∉ rest := fun hh => hmem (List.mem_cons_of_mem _ hh)
      have ih2 := ih hrest
      simp only [flatten, List.flatMap_cons, List.filter_append, List.map_append,
        List.sum_append] at ih2 ⊢
      rw [flatten_seg_sum x nm (st.allocationsMap x) P
        (fun a => P ⟨a.hourStart, a.hourEnd, a.shift, x, a.qty⟩) (fun a => rfl)]
      rw [if_neg hx, ih2, add_zero]

/-- Filtered quantity sums over the flattened list restrict to the named
operation, provided names are unique. -/
theorem flatten_sum_mem (names : List String) (st : PipeState) (nm : String)
    (P : FlatAlloc → Bool) (Q : OpAlloc → Bool)
    (hPQ : ∀ (x : String) (a : OpAlloc),
      P { hourStart := a.hourStart, hourEnd := a.hourEnd, shift := a.shift,
          opName := x, qty := a.qty } = Q a)
    (hnd : names.Nodup) (hmem : nm ∈ names) :
    (((flatten names st).filter
        (fun a => decide (a.opName = nm) && P a)).map (fun a => a.qty)).sum
      = (((st.allocationsMap nm).filter Q).map (fun a => a.qty)).sum := by
  induction names with
  | nil => exact absurd hmem (List.not_mem_nil nm)
  | cons x rest ih =>
      obtain ⟨hx2, hndr⟩ := List.nodup_cons.mp hnd
      simp only [flatten, List.flatMap_cons, List.filter_append, List.map_append,
        List.sum_append]
      by_cases hx : x = nm
      · rw [flatten_seg_sum x nm (st.allocationsMap x) P Q (hPQ x), if_pos hx]
        have hrest : nm ∉ rest := hx ▸ hx2
        have h0 := flatten_sum_not_mem rest st nm P hrest
        simp only [flatten] at h0
        rw [h0, hx, add_zero]
      · rcases List.mem_cons.mp hmem with hmem2 | hmem2
        · exact absurd hmem2.symm hx
        · rw [flatten_seg_sum x nm (st.allocationsMap x) P Q (hPQ x), if_neg hx]
          have h1 := ih hndr hmem2
          simp only [flatten] at h1
          rw [h1, zero_add]

theorem qtyProcessedUpTo_flatten (names : List String) (st : PipeState)
    (nm : String) (H : Int) (hnd : names.Nodup) (hmem : nm ∈ names) :
    qtyProcessedUpTo nm H (flatten names st) =
      opQtyUpTo (st.allocationsMap nm) H :=
  flatten_sum_mem names st nm (fun a => decide (a.hourStart ≤ H))
    (fun a => decide (a.hourStart ≤ H)) (fun _ _ => rfl) hnd hmem

theorem qtyFinishedUpTo_flatten (names : List String) (st : PipeState)
    (nm : String) (H : Int) (hnd : names.Nodup) (hmem : nm ∈ names) :
    qtyFinishedUpTo nm H (flatten names st) =
      opFinUpTo (st.allocationsMap nm) H :=
  flatten_sum_mem names st nm (fun a => decide (a.hourEnd ≤ H))
    (fun a => decide (a.hourEnd ≤ H)) (fun _ _ => rfl) hnd hmem

theorem sumQtyFor_flatten (names : List String) (st : PipeState)
    (nm : String) (hnd : names.Nodup) (hmem : nm ∈ names) :
    sumQtyFor nm (flatten names st) =
      ((st.allocationsMap nm).map (fun a => a.qty)).sum := by
  have h := flatten_sum_mem names st nm (fun _ => true) (fun _ => true)
    (fun _ _ => rfl) hnd hmem
  have e1 : ((flatten names st).filter
      (fun a => decide (a.opName = nm) && true)) =
      ((flatten names st).filter (fun a => decide (a.opName = nm))) := by
    apply List.filter_congr
    intro a _
    simp
  have e2 : (st.allocationsMap nm).filter (fun _ => true) =
      st.allocationsMap nm := List.filter_true _
  rw [e1, e2] at h
  exact h

theorem insertLe_perm {α : Type} (le : α → α → Bool) (a : α) (l : List α) :
    List.Perm (insertLe le a l) (a :: l) := by
  induction l with
  | nil => exact List.Perm.refl _
  | cons b l ih =>
      unfold insertLe
      split
      · exact List.Perm.refl _
      · exact (ih.cons b).trans (List.Perm.swap a b l)

theorem sortBy_perm {α : Type} (le : α → α → Bool) (l : List α) :
    List.Perm (sortBy le l) l := by
  induction l with
  | nil => exact List.Perm.refl _
  | cons a l ih => exact (insertLe_perm le a (sortBy le l)).trans (ih.cons a)

theorem qtyProcessedUpTo_sortBy (nm : String) (H : Int)
    (l : List FlatAlloc) (le : FlatAlloc → FlatAlloc → Bool) :
    qtyProcessedUpTo nm H (sortBy le l) = qtyProcessedUpTo nm H l :=
  (((sortBy_perm le l).filter _).map _).sum_eq

theorem qtyFinishedUpTo_sortBy (nm : String) (H : Int)
    (l : List FlatAlloc) (le : FlatAlloc → FlatAlloc → Bool) :
    qtyFinishedUpTo nm H (sortBy le l) = qtyFinishedUpTo nm H l :=
  (((sortBy_perm le l).filter _).map _).sum_eq

theorem sumQtyFor_sortBy (nm : String) (l : List FlatAlloc)
    (le : FlatAlloc → FlatAlloc → Bool) :
    sumQtyFor nm (sortBy le l) = sumQtyFor nm l :=
  (((sortBy_perm le l).filter _).map _).sum_eq

/-- Adjacent positions of the name list give an `Adjacent` decomposition. -/
theorem adjacent_of_lt (names : List String) (i : Nat)
    (hi : i + 1 < names.length) :
    Adjacent names (names.get ⟨i, Nat.lt_of_succ_lt hi⟩)
      (names.get ⟨i + 1, hi⟩) := by
  refine ⟨names.take i, names.drop (i + 2), ?_⟩
  rw [List.get_eq_getElem, List.get_eq_getElem]
  conv_lhs => rw [← List.take_append_drop i names]
  rw [List.drop_eq_getElem_cons (Nat.lt_of_succ_lt hi),
    List.drop_eq_getElem_cons hi]

/-- The allocations of the schedule result, unfolded. -/
theorem schedule_allocations_eq (start due qty : Int)
    (operations : List OpInfo) (cap : String → Int → Int) :
    (schedule_order_operations start due qty operations cap).allocations =
      sortBy flatLe
        (flatten (operations.map (fun o => o.name))
          (simHours cap qty (operations.map (fun o => o.name))
            (numHours (floorHour start) due) (floorHour start)
            initState)) := rfl

/-- The precedence bound on the schedule output, for any adjacent pair of
distinct operation names. -/
theorem schedule_pair_bound (start due qty : Int) (operations : List OpInfo)
    (cap : String → Int → Int)
    (hnd : (operations.map (fun o => o.name)).Nodup)
    (p q : String)
    (hadj : Adjacent (operations.map (fun o => o.name)) p q) (H : Int) :
    qtyProcessedUpTo q H
        (schedule_order_operations start due qty operations cap).allocations ≤
      qtyFinishedUpTo p H
        (schedule_order_operations start due qty operations cap).allocations := by
  obtain ⟨hent, hlink, hpair⟩ :=
    simHours_SimInv cap qty (operations.map (fun o => o.name))
      (numHours (floorHour start) due) (floorHour start) initState hnd
      (SimInv_init cap (operations.map (fun o => o.name)) (floorHour start))
  have hp := hpair p q hadj
  obtain ⟨l₁, l₂, hdecomp⟩ := hadj
  have hqmem : q ∈ operations.map (fun o => o.name) := by
    rw [hdecomp]
    exact List.mem_append.mpr
      (Or.inr (List.mem_cons_of_mem _ (List.mem_cons_self q _)))
  have hpmem : p ∈ operations.map (fun o => o.name) := by
    rw [hdecomp]
    exact List.mem_append.mpr (Or.inr (List.mem_cons_self p _))
  rw [schedule_allocations_eq, qtyProcessedUpTo_sortBy,
    qtyFinishedUpTo_sortBy,
    qtyProcessedUpTo_flatten _ _ _ _ hnd hqmem,
    qtyFinishedUpTo_flatten _ _ _ _ hnd hpmem]
  exact hp H

/-- Every record of the schedule output is positive and within capacity. -/
theorem schedule_mem_bound (start due qty : Int) (operations : List OpInfo)
    (cap : String → Int → Int) :
    ∀ a ∈ (schedule_order_operations start due qty operations cap).allocations,
      0 < a.qty ∧ a.qty ≤ cap a.opName a.hourStart := by
  intro a ha
  rw [schedule_allocations_eq] at ha
  have ha2 := ((sortBy_perm flatLe _).mem_iff).mp ha
  obtain ⟨nm, hnm, ha3⟩ := List.mem_flatMap.mp ha2
  obtain ⟨oa, hoa, rfl⟩ := List.mem_map.mp ha3
  have hent := simHours_entries cap qty (operations.map (fun o => o.name))
    (numHours (floorHour start) due) (floorHour start) initState
    (fun _ a ha => absurd ha (List.not_mem_nil a))
  obtain ⟨_, _, e3, e4⟩ := hent nm oa hoa
  exact ⟨e3, e4⟩

/-- The total of the schedule result, unfolded. -/
theorem schedule_total_eq (start due qty : Int) (operations : List OpInfo)
    (cap : String → Int → Int) :
    (schedule_order_operations start due qty operations cap).total_allocated =
      (match (operations.map (fun o => o.name)).getLast? with
       | some nm =>
           if nm = "" then 0
           else
             (simHours cap qty (operations.map (fun o => o.name))
               (numHours (floorHour start) due) (floorHour start)
               initState).processed nm
       | none => 0) := rfl

/-- With a truthy (non-empty) last operation name, the total is its
`processed` counter. -/
theorem schedule_total_some (start due qty : Int) (operations : List OpInfo)
    (cap : String → Int → Int) (nm : String)
    (hlast : (operations.map (fun o => o.name)).getLast? = some nm)
    (hne : nm ≠ "") :
    (schedule_order_operations start due qty operations cap).total_allocated =
      (simHours cap qty (operations.map (fun o => o.name))
        (numHours (floorHour start) due) (floorHour start)
        initState).processed nm := by
  rw [schedule_total_eq, hlast]
  exact if_neg hne

/-- The note of the schedule result, unfolded. -/
theorem schedule_note_eq (start due qty : Int) (operations : List OpInfo)
    (cap : String → Int → Int) :
    (schedule_order_operations start due qty operations cap).note =
      (if (schedule_order_operations start due qty operations cap).total_allocated < qty
       then some ("Operation \x27" ++
          (match (operations.map (fun o => o.name)).getLast? with
           | some nm => nm
           | none => "None") ++
          "\x27 under-capacity: requested " ++ toString qty ++
          ", allocated " ++
          toString
            (schedule_order_operations start due qty operations cap).total_allocated
          ++ ".")
       else none) := rfl

/-- Simulating over an empty operation list never changes the state. -/
theorem simHours_nil (cap : String → Int → Int) (qty : Int) (n : Nat)
    (c : Int) (st : PipeState) : simHours cap qty [] n c st = st := by
  induction n generalizing c st with
  | zero => rfl
  | succ n ih => exact ih (c + 60) st

end App

namespace Core

theorem batchStep_processed (required : Int) (opsCaps : List (String × Int))
    (st : CoreState) :
    (batchStep required opsCaps st).processed =
      st.processed + min 100 (required - st.processed) := rfl

theorem batchStep_allocations (required : Int) (opsCaps : List (String × Int))
    (st : CoreState) :
    (batchStep required opsCaps st).allocations =
      st.allocations ++
        (corePassAux (min 100 (required - st.processed)) opsCaps
          st.currentTimes).1 := rfl

theorem batchStep_currentTimes (required : Int) (opsCaps : List (String × Int))
    (st : CoreState) :
    (batchStep required opsCaps st).currentTimes =
      (corePassAux (min 100 (required - st.processed)) opsCaps
        st.currentTimes).2 := rfl

/-- A fuelled run with enough fuel equals the while loop. -/
theorem coreIter_eq_coreWhile (required : Int) (opsCaps : List (String × Int))
    (n : Nat) (st : CoreState)
    (hn : (required - st.processed).toNat ≤ n) :
    coreIter required opsCaps n st = coreWhile required opsCaps st := by
  induction n generalizing st with
  | zero =>
      have h : ¬ st.processed < required := by omega
      rw [coreWhile, dif_neg h]
      rfl
  | succ n ih =>
      by_cases h : st.processed < required
      · rw [coreWhile, dif_pos h]
        simp only [coreIter, if_pos h]
        refine ih (batchStep required opsCaps st) ?_
        rw [batchStep_processed]
        omega
      · rw [coreWhile, dif_neg h]
        simp only [coreIter, if_neg h]

/-- One batch pass emits one record of `batch` units per operation. -/
theorem corePassAux_qty_sum (batch : Int) (opsCaps : List (String × Int))
    (ts : List Int) (hlen : ts.length = opsCaps.length) :
    (((corePassAux batch opsCaps ts).1).map (fun a => a.qty)).sum =
      batch * opsCaps.length := by
  induction opsCaps generalizing ts with
  | nil => simp [corePassAux]
  | cons oc rest ih =>
      match ts, hlen with
      | t :: ts, hlen =>
          obtain ⟨nm, pph⟩ := oc
          simp only [corePassAux, List.map_cons, List.sum_cons, List.length_cons]
          rw [ih ts (by simpa using hlen)]
          push_cast
          ring

/-- One batch pass keeps one clock per operation. -/
theorem corePassAux_len (batch : Int) (opsCaps : List (String × Int))
    (ts : List Int) (hlen : ts.length = opsCaps.length) :
    ((corePassAux batch opsCaps ts).2).length = opsCaps.length := by
  induction opsCaps generalizing ts with
  | nil => simp [corePassAux]
  | cons oc rest ih =>
      match ts, hlen with
      | t :: ts, hlen =>
          obtain ⟨nm, pph⟩ := oc
          simp only [corePassAux, List.length_cons]
          rw [ih ts (by simpa using hlen)]

/-- The while loop processes the entire outstanding quantity, emitting
`remaining × number-of-operations` units of allocation in total. -/
theorem coreWhile_total (required : Int) (opsCaps : List (String × Int))
    (st : CoreState) (hlen : st.currentTimes.length = opsCaps.length) :
    (((coreWhile required opsCaps st).allocations).map (fun a => a.qty)).sum =
      ((st.allocations).map (fun a => a.qty)).sum +
        max 0 (required - st.processed) * opsCaps.length := by
  rw [coreWhile]
  split
  case isTrue h =>
      rw [coreWhile_total required opsCaps (batchStep required opsCaps st)
        (by rw [batchStep_currentTimes]; exact corePassAux_len _ _ _ hlen)]
      rw [batchStep_allocations, batchStep_processed]
      rw [List.map_append, List.sum_append, corePassAux_qty_sum _ _ _ hlen]
      have e : max 0 (required - st.processed) =
          min 100 (required - st.processed) +
            max 0 (required - (st.processed + min 100 (required - st.processed))) := by
        omega
      rw [e, add_mul]
      ring
  case isFalse h =>
      have e : max 0 (required - st.processed) = 0 := by omega
      rw [e]
      simp
termination_by (required - st.processed).toNat
decreasing_by rw [batchStep_processed]; omega

/-- The Core scheduler ignores the window entirely: the returned total is
always `required_input × number of operations`. -/
theorem coreSchedule_total (start due required : Int)
    (operations : List App.OpInfo) (cap : String → Int → Int)
    (hne : operations ≠ []) (hreq : 0 ≤ required) :
    (Core.schedule_order_operations start due required operations
      cap).total_allocated = required * operations.length := by
  have hempty : ¬ (operations.isEmpty = true) := by
    intro hh
    exact hne (List.isEmpty_iff.mp hh)
  unfold schedule_order_operations
  rw [if_neg hempty]
  simp only
  rw [coreIter_eq_coreWhile _ _ _ _ (by simp)]
  rw [coreWhile_total _ _ _ (by simp)]
  simp [hreq, max_eq_right hreq]

end Core

namespace Main

/-- The fold underlying `pyMax`, started from a running maximum, returns
the maximum of the seed and the list. -/
theorem pyMax_foldl (l : List Int) (m : Int) :
    ∃ b, l.foldl (fun acc t =>
        match acc with
        | none => some t
        | some mm => some (max mm t)) (some m) = some b ∧
      (b = m ∨ b ∈ l) ∧ m ≤ b ∧ ∀ e ∈ l, e ≤ b := by
  induction l generalizing m with
  | nil =>
      exact ⟨m, rfl, Or.inl rfl, le_refl m,
        fun e he => absurd he (List.not_mem_nil e)⟩
  | cons x l ih =>
      obtain ⟨b, hb, hmem, hle, hub⟩ := ih (max m x)
      refine ⟨b, hb, ?_, le_trans (le_max_left m x) hle, ?_⟩
      · rcases hmem with hmem | hmem
        · rcases max_choice m x with hmx | hmx
          · exact Or.inl (hmem.trans hmx)
          · exact Or.inr (hmem.trans hmx ▸ List.mem_cons_self x l)
        · exact Or.inr (List.mem_cons_of_mem x hmem)
      · intro e he
        rcases List.mem_cons.mp he with rfl | he
        · exact le_trans (le_max_right m e) hle
        · exact hub e he

/-- Python `max` over a non-empty list is a member and an upper bound. -/
theorem pyMax_spec (l : List Int) (b : Int) (h : pyMax l = some b) :
    b ∈ l ∧ ∀ e ∈ l, e ≤ b := by
  cases l with
  | nil => exact Option.noConfusion h
  | cons x l =>
      obtain ⟨b2, hb2, hmem, hle, hub⟩ := pyMax_foldl l x
      have h2 : some b2 = some b := hb2.symm.trans h
      obtain rfl := Option.some_injective _ h2
      refine ⟨?_, ?_⟩
      · rcases hmem with rfl | hmem
        · exact List.mem_cons_self b2 l
        · exact List.mem_cons_of_mem x hmem
      · intro e he
        rcases List.mem_cons.mp he with rfl | he
        · exact hle
        · exact hub e he

/-- Python `max` is `None` only on the empty list. -/
theorem pyMax_eq_none (l : List Int) (h : pyMax l = none) : l = [] := by
  cases l with
  | nil => rfl
  | cons x l =>
      obtain ⟨b2, hb2, _, _, _⟩ := pyMax_foldl l x
      rw [show pyMax (x :: l) = l.foldl (fun acc t =>
        match acc with
        | none => some t
        | some mm => some (max mm t)) (some x) from rfl, hb2] at h
      exact Option.noConfusion h

end Main

namespace Main

/-- When the schedule covers the requirement, the deadline evaluation
reports success with no estimate. -/
theorem deadline_eval_of_le (T R : Int) (allocs : List App.FlatAlloc)
    (ops : List App.OpInfo) (start due : Int) (hR : R ≤ T) :
    deadline_eval T R allocs ops start due =
      { meets_due := true, expected_completion := none,
        meets_due_estimate := true } := by
  unfold deadline_eval
  rw [if_pos hR]

/-- With a shortfall and no resolvable last-operation throughput, no
estimate is produced. -/
theorem deadline_eval_none (T R : Int) (allocs : List App.FlatAlloc)
    (ops : List App.OpInfo) (start due : Int) (hR : ¬ R ≤ T)
    (hp : (ops.find? (fun o =>
        decide (some o.name = (ops.getLast?).map (fun o => o.name)))).bind
        (fun o => o.piecesPerHour) = none) :
    deadline_eval T R allocs ops start due =
      { meets_due := false, expected_completion := none,
        meets_due_estimate := false } := by
  unfold deadline_eval
  rw [if_neg hR]
  dsimp only
  split
  next p2 heq => rw [hp] at heq; exact Option.noConfusion heq
  next heq => rfl

/-- With a shortfall and a non-positive last-operation throughput, no
estimate is produced. -/
theorem deadline_eval_nonpos (T R : Int) (allocs : List App.FlatAlloc)
    (ops : List App.OpInfo) (start due : Int) (p : Int) (hR : ¬ R ≤ T)
    (hp : (ops.find? (fun o =>
        decide (some o.name = (ops.getLast?).map (fun o => o.name)))).bind
        (fun o => o.piecesPerHour) = some p) (hpp : ¬ 0 < p) :
    deadline_eval T R allocs ops start due =
      { meets_due := false, expected_completion := none,
        meets_due_estimate := false } := by
  unfold deadline_eval
  rw [if_neg hR]
  dsimp only
  split
  next p2 heq =>
      rw [hp] at heq
      injection heq with h2
      subst h2
      rw [if_neg hpp]
  next heq => rw [hp] at heq

/-- With a shortfall and a positive last-operation throughput, the
estimate extrapolates from the latest allocation end of the last
operation (falling back to the window start). -/
theorem deadline_eval_pos (T R : Int) (allocs : List App.FlatAlloc)
    (ops : List App.OpInfo) (start due : Int) (p : Int) (hR : ¬ R ≤ T)
    (hp : (ops.find? (fun o =>
        decide (some o.name = (ops.getLast?).map (fun o => o.name)))).bind
        (fun o => o.piecesPerHour) = some p) (hpp : 0 < p) :
    deadline_eval T R allocs ops start due =
      { meets_due := false,
        expected_completion := some
          ((Main.pyMax ((allocs.filter (fun a =>
              decide (some a.opName = (ops.getLast?).map (fun o => o.name)))).map
              (fun a => a.hourEnd))).getD start + 60 * intCeilDiv (R - T) p),
        meets_due_estimate := decide
          ((Main.pyMax ((allocs.filter (fun a =>
              decide (some a.opName = (ops.getLast?).map (fun o => o.name)))).map
              (fun a => a.hourEnd))).getD start + 60 * intCeilDiv (R - T) p
            ≤ due) } := by
  unfold deadline_eval
  rw [if_neg hR]
  dsimp only
  split
  next p2 heq =>
      rw [hp] at heq
      injection heq with h2
      subst h2
      rw [if_pos hpp]
      cases Main.pyMax ((allocs.filter (fun a =>
          decide (some a.opName = (ops.getLast?).map (fun o => o.name)))).map
          (fun a => a.hourEnd)) <;> rfl
  next heq => rw [hp] at heq; exact Option.noConfusion heq

end Main

/-- `intCeilDiv a b` with `b > 0` is the least integer `k` with
`a ≤ b * k`. -/
theorem intCeilDiv_spec (a b : Int) (hb : 0 < b) :
    a ≤ b * intCeilDiv a b ∧ b * (intCeilDiv a b - 1) < a := by
  unfold intCeilDiv
  have hid := Int.ediv_add_emod (a + b - 1) b
  have h1 := Int.emod_nonneg (a + b - 1) (by omega : b ≠ 0)
  have h2 := Int.emod_lt_of_pos (a + b - 1) hb
  constructor
  · linarith [hid, h1, h2]
  · have e : b * ((a + b - 1) / b - 1) =
        b * ((a + b - 1) / b) - b := by ring
    rw [e]
    linarith [hid, h1]

/-! ## Claim theorems -/

/-- C1: precedence invariant of the pipelined scheduler
(`app/scheduler.py`).  For operations with distinct names, for every
index `i > 0` and every instant `H`, the cumulative quantity operation
`i` has processed in hours starting at or before `H` never exceeds the
cumulative quantity operation `i - 1` has finished (hour end) at or
before `H`. -/
theorem claim_C1_precedence_invariant (start due qty : Int)
    (operations : List App.OpInfo) (cap : String → Int → Int)
    (hnd : (operations.map (fun o => o.name)).Nodup) (i : Nat)
    (hi : i + 1 < (operations.map (fun o => o.name)).length) (H : Int) :
    App.qtyProcessedUpTo
        ((operations.map (fun o => o.name)).get ⟨i + 1, hi⟩) H
        (App.schedule_order_operations start due qty operations cap).allocations ≤
      App.qtyFinishedUpTo
        ((operations.map (fun o => o.name)).get ⟨i, Nat.lt_of_succ_lt hi⟩) H
        (App.schedule_order_operations start due qty operations cap).allocations :=
  App.schedule_pair_bound start due qty operations cap hnd _ _
    (App.adjacent_of_lt (operations.map (fun o => o.name)) i hi) H

/-- Witness for C1: a cut-then-pack pipeline over a two-hour window. -/
theorem claim_C1_precedence_invariant_witness :
    App.qtyProcessedUpTo "pack" 540
        (App.schedule_order_operations 480 600 100
          [⟨"cut", none⟩, ⟨"pack", none⟩]
          (fun nm _ => if nm = "cut" then 1000 else 10)).allocations ≤
      App.qtyFinishedUpTo "cut" 540
        (App.schedule_order_operations 480 600 100
          [⟨"cut", none⟩, ⟨"pack", none⟩]
          (fun nm _ => if nm = "cut" then 1000 else 10)).allocations :=
  claim_C1_precedence_invariant 480 600 100
    [⟨"cut", none⟩, ⟨"pack", none⟩]
    (fun nm _ => if nm = "cut" then 1000 else 10) (by decide) 0 (by decide) 540

/-- C2: capacity bound of the pipelined scheduler.  Every allocation
record carries a strictly positive quantity that is at most the capacity
the resolver returned for that (operation, hour start) pair; in
particular an hour with capacity `≤ 0`, or with a computed allocation of
`0`, contributes no record. -/
theorem claim_C2_capacity_bound_records (start due qty : Int)
    (operations : List App.OpInfo) (cap : String → Int → Int)
    (a : App.FlatAlloc)
    (ha : a ∈ (App.schedule_order_operations start due qty operations
      cap).allocations) :
    0 < a.qty ∧ a.qty ≤ cap a.opName a.hourStart :=
  App.schedule_mem_bound start due qty operations cap a ha

/-- Witness for C2: the cut record of the cut-then-pack run. -/
theorem claim_C2_capacity_bound_records_witness :
    (⟨480, 540, Shift.day, "cut", 100⟩ : App.FlatAlloc) ∈
        (App.schedule_order_operations 480 600 100
          [⟨"cut", none⟩, ⟨"pack", none⟩]
          (fun nm _ => if nm = "cut" then 1000 else 10)).allocations ∧
      (0 : Int) < 100 ∧ (100 : Int) ≤ 1000 :=
  ⟨by decide,
    claim_C2_capacity_bound_records 480 600 100
      [⟨"cut", none⟩, ⟨"pack", none⟩]
      (fun nm _ => if nm = "cut" then 1000 else 10)
      ⟨480, 540, Shift.day, "cut", 100⟩ (by decide)⟩

/-- C3 counterexample: with an empty operations list and `qty = 1 > 0`
the pipelined scheduler does not return `note = None`; it returns the
under-capacity note naming the non-existent operation `None`. -/
theorem claim_C3_note_counterexample :
    (App.schedule_order_operations 0 60 1 [] (fun _ _ => 5)).note =
      some "Operation \x27None\x27 under-capacity: requested 1, allocated 0." :=
  rfl

/-- C3 (amended): with an empty operations list the pipelined scheduler
returns `allocations = []` and `total_allocated = 0` for every window and
quantity, and `note = None` exactly when `qty ≤ 0`; for `qty > 0` the
note is the under-capacity message naming operation `None` with allocated
0. -/
theorem claim_C3_empty_operations (start due qty : Int)
    (cap : String → Int → Int) :
    (App.schedule_order_operations start due qty [] cap).allocations = [] ∧
    (App.schedule_order_operations start due qty [] cap).total_allocated = 0 ∧
    (qty ≤ 0 →
      (App.schedule_order_operations start due qty [] cap).note = none) ∧
    (0 < qty →
      (App.schedule_order_operations start due qty [] cap).note =
        some ("Operation \x27None\x27 under-capacity: requested " ++
          toString qty ++ ", allocated " ++ toString (0 : Int) ++ ".")) := by
  refine ⟨rfl, rfl, ?_, ?_⟩
  · intro h
    rw [App.schedule_note_eq,
      show (App.schedule_order_operations start due qty [] cap).total_allocated
        = 0 from rfl, if_neg (by omega)]
  · intro h
    rw [App.schedule_note_eq,
      show (App.schedule_order_operations start due qty [] cap).total_allocated
        = 0 from rfl, if_pos h]
    rfl

/-- Witness for C3 (amended): the empty-operations run at `qty = 1`. -/
theorem claim_C3_empty_operations_witness :
    (App.schedule_order_operations 0 60 1 [] (fun _ _ => 5)).allocations = [] ∧
    (App.schedule_order_operations 0 60 1 [] (fun _ _ => 5)).note =
      some ("Operation \x27None\x27 under-capacity: requested " ++
        toString (1 : Int) ++ ", allocated " ++ toString (0 : Int) ++ ".") :=
  ⟨(claim_C3_empty_operations 0 60 1 (fun _ _ => 5)).1,
    (claim_C3_empty_operations 0 60 1 (fun _ _ => 5)).2.2.2 (by norm_num)⟩

/-- C4 counterexample: the batch scheduler in `core/scheduler.py` (the
implementation `main.py` imports) returns `total_allocated = 10` for a
two-operation order of 5 units, while its last operation only carries 5
units of allocations — the total is the sum over all stages, not the
final processed count of the last operation. -/
theorem claim_C4_core_counterexample :
    (Core.schedule_order_operations 0 600 5
        [⟨"a", none⟩, ⟨"b", none⟩] (fun _ _ => 10)).total_allocated = 10 ∧
    App.sumQtyFor "b"
        (Core.schedule_order_operations 0 600 5
          [⟨"a", none⟩, ⟨"b", none⟩] (fun _ _ => 10)).allocations = 5 :=
  ⟨by decide, by decide⟩

/-- C4 (amended): for the pipelined scheduler in `app/scheduler.py` with
a non-empty, uniquely named operations list whose last operation has a
non-empty name, `total_allocated` equals the total quantity allocated to
the last operation in pipeline order — the terminal stage only, never a
sum over all stages.  When the last operation's name is the empty string,
the Python truthiness test `if last_op_name` on line 157 falls back to 0,
so `total_allocated = 0` regardless of what was processed.  (The batch
scheduler in `core/scheduler.py` instead returns the sum over all stages;
see the counterexample.) -/
theorem claim_C4_total_is_last_stage (start due qty : Int)
    (operations : List App.OpInfo) (cap : String → Int → Int)
    (hnd : (operations.map (fun o => o.name)).Nodup) (nm : String)
    (hlast : (operations.map (fun o => o.name)).getLast? = some nm) :
    (nm ≠ "" →
      (App.schedule_order_operations start due qty operations
          cap).total_allocated =
        App.sumQtyFor nm
          (App.schedule_order_operations start due qty operations
            cap).allocations) ∧
    (nm = "" →
      (App.schedule_order_operations start due qty operations
          cap).total_allocated = 0) := by
  constructor
  · intro hne
    have hmem : nm ∈ operations.map (fun o => o.name) :=
      List.mem_of_mem_getLast? (by simp [hlast])
    rw [App.schedule_total_some start due qty operations cap nm hlast hne,
      App.schedule_allocations_eq, App.sumQtyFor_sortBy,
      App.sumQtyFor_flatten _ _ _ hnd hmem]
    obtain ⟨_, hlink, _⟩ := App.simHours_SimInv cap qty
      (operations.map (fun o => o.name)) (App.numHours (floorHour start) due)
      (floorHour start) App.initState hnd
      (App.SimInv_init cap (operations.map (fun o => o.name)) (floorHour start))
    exact (hlink nm).2
  · intro hnm
    rw [App.schedule_total_eq, hlast]
    exact if_pos hnm

/-- Witness for C4 (amended): the cut-then-pack run, and a single
operation with the falsy empty-string name. -/
theorem claim_C4_total_is_last_stage_witness :
    ((App.schedule_order_operations 480 600 100
        [⟨"cut", none⟩, ⟨"pack", none⟩]
        (fun nm _ => if nm = "cut" then 1000 else 10)).total_allocated =
      App.sumQtyFor "pack"
        (App.schedule_order_operations 480 600 100
          [⟨"cut", none⟩, ⟨"pack", none⟩]
          (fun nm _ => if nm = "cut" then 1000 else 10)).allocations) ∧
    (App.schedule_order_operations 0 60 5 [⟨"", none⟩]
        (fun _ _ => 5)).total_allocated = 0 :=
  ⟨(claim_C4_total_is_last_stage 480 600 100
      [⟨"cut", none⟩, ⟨"pack", none⟩]
      (fun nm _ => if nm = "cut" then 1000 else 10) (by decide) "pack"
      (by decide)).1 (by decide),
   (claim_C4_total_is_last_stage 0 60 5 [⟨"", none⟩]
      (fun _ _ => 5) (by decide) "" (by decide)).2 rfl⟩

/-- C5 counterexample: with `start = 630` (10:30) and `due = 615`
(10:15) we have `due ≤ start`, yet the hourly loop runs one iteration
(the cursor is floored to 600 = 10:00 first), not the zero iterations
the claim's `ceil((due-start)/1h)` formula predicts. -/
theorem claim_C5_count_counterexample :
    (615 : Int) ≤ 630 ∧ App.iterCount 615 (floorHour 630) = 1 := by
  refine ⟨by norm_num, ?_⟩
  rw [App.iterCount_closed]
  decide

/-- C5 (amended): the hourly loop of the pipelined scheduler terminates,
advances the cursor by exactly one hour per iteration, and runs exactly
`⌈(due - floor_to_hour(start))/1h⌉` iterations when that is positive and
0 otherwise (`numHours`); when `start` lies on an hour boundary this is
exactly `⌈(due - start)/1h⌉` with zero iterations for `due ≤ start`, but
for an off-boundary `start` the count is taken from the floored start. -/
theorem claim_C5_iteration_count (start due : Int) :
    App.iterCount due (floorHour start) = App.numHours (floorHour start) due ∧
    (due ≤ floorHour start → App.iterCount due (floorHour start) = 0) ∧
    (Int.emod start 60 = 0 →
      App.iterCount due (floorHour start) = ((due - start + 59).toNat) / 60) ∧
    (∀ c : Int, c < due → App.iterCount due c = App.iterCount due (c + 60) + 1) ∧
    (∀ (cap : String → Int → Int) (qty : Int) (ops : List String)
      (st : App.PipeState) (c : Int),
      App.simWhile cap qty ops due c st =
        App.simHours cap qty ops (App.iterCount due c) c st) := by
  refine ⟨App.iterCount_closed due _, ?_, ?_, ?_, ?_⟩
  · intro h
    rw [App.iterCount_closed]
    unfold App.numHours
    rw [Nat.div_eq_of_lt (by omega)]
  · intro h
    rw [App.iterCount_closed]
    unfold App.numHours
    have e : floorHour start = start := by unfold floorHour; omega
    rw [e]
  · intro c hc
    rw [App.iterCount_closed, App.iterCount_closed]
    unfold App.numHours
    have h1 : (due - c + 59).toNat = (due - (c + 60) + 59).toNat + 60 := by
      omega
    rw [h1, Nat.add_div_right _ (by norm_num)]
  · intro cap qty ops st c
    exact App.simWhile_eq_simHours cap qty ops due c st

/-- Witness for C5 (amended): concrete iteration counts. -/
theorem claim_C5_iteration_count_witness :
    App.iterCount 615 (floorHour 630) = App.numHours (floorHour 630) 615 ∧
    App.iterCount 500 (floorHour 630) = 0 ∧
    App.iterCount 720 (floorHour 600) = (((720 : Int) - 600 + 59).toNat) / 60 ∧
    App.iterCount 750 600 = App.iterCount 750 660 + 1 ∧
    App.simWhile (fun _ _ => 1) 5 [] 120 0 App.initState =
      App.simHours (fun _ _ => 1) 5 [] (App.iterCount 120 0) 0 App.initState :=
  ⟨(claim_C5_iteration_count 630 615).1,
   (claim_C5_iteration_count 630 500).2.1 (by decide),
   (claim_C5_iteration_count 600 720).2.2.1 (by decide),
   (claim_C5_iteration_count 0 750).2.2.2.1 600 (by decide),
   (claim_C5_iteration_count 0 120).2.2.2.2 (fun _ _ => 1) 5 [] App.initState 0⟩

/-- C6: the deadline evaluation of `app/main.py`.  `meets_due` holds iff
the scheduled total covers the required input; on success the estimate is
`true` with no completion time; on a shortfall with a positive
last-operation pieces-per-hour the completion time is the latest
`hour_end` among the last operation's allocations (window start if none)
plus `⌈remaining / pph⌉` hours, and the estimate compares it with `due`;
with an unavailable or non-positive pieces-per-hour no completion time is
produced and the estimate stays `false`. -/
theorem claim_C6_deadline_evaluation (T R : Int) (allocs : List App.FlatAlloc)
    (ops : List App.OpInfo) (start due : Int) :
    ((Main.deadline_eval T R allocs ops start due).meets_due = true ↔ R ≤ T) ∧
    (R ≤ T →
      (Main.deadline_eval T R allocs ops start due).expected_completion = none ∧
      (Main.deadline_eval T R allocs ops start due).meets_due_estimate = true) ∧
    (T < R → ∀ p : Int,
      ((ops.find? (fun o =>
          decide (some o.name = (ops.getLast?).map (fun o => o.name)))).bind
          (fun o => o.piecesPerHour)) = some p → 0 < p →
      ∃ B : Int,
        ((((allocs.filter (fun a =>
            decide (some a.opName = (ops.getLast?).map (fun o => o.name)))).map
            (fun a => a.hourEnd)) = [] ∧ B = start) ∨
          (B ∈ ((allocs.filter (fun a =>
            decide (some a.opName = (ops.getLast?).map (fun o => o.name)))).map
            (fun a => a.hourEnd)) ∧
           ∀ e ∈ ((allocs.filter (fun a =>
            decide (some a.opName = (ops.getLast?).map (fun o => o.name)))).map
            (fun a => a.hourEnd)), e ≤ B)) ∧
        (Main.deadline_eval T R allocs ops start due).expected_completion =
          some (B + 60 * intCeilDiv (R - T) p) ∧
        ((Main.deadline_eval T R allocs ops start due).meets_due_estimate = true ↔
          B + 60 * intCeilDiv (R - T) p ≤ due) ∧
        R - T ≤ p * intCeilDiv (R - T) p ∧
        p * (intCeilDiv (R - T) p - 1) < R - T) ∧
    (T < R →
      (((ops.find? (fun o =>
          decide (some o.name = (ops.getLast?).map (fun o => o.name)))).bind
          (fun o => o.piecesPerHour) = none) ∨
       (∃ p : Int, ((ops.find? (fun o =>
          decide (some o.name = (ops.getLast?).map (fun o => o.name)))).bind
          (fun o => o.piecesPerHour)) = some p ∧ p ≤ 0)) →
      (Main.deadline_eval T R allocs ops start due).expected_completion = none ∧
      (Main.deadline_eval T R allocs ops start due).meets_due_estimate = false) := by
  by_cases hR : R ≤ T
  · rw [Main.deadline_eval_of_le T R allocs ops start due hR]
    exact ⟨by simp [hR], fun _ => ⟨rfl, rfl⟩,
      fun hTR => absurd hR (by omega), fun hTR => absurd hR (by omega)⟩
  · refine ⟨?_, fun hle => absurd hle hR, ?_, ?_⟩
    · cases hp : (ops.find? (fun o =>
          decide (some o.name = (ops.getLast?).map (fun o => o.name)))).bind
          (fun o => o.piecesPerHour) with
      | none =>
          rw [Main.deadline_eval_none T R allocs ops start due hR hp]
          simp [hR]
      | some p =>
          by_cases hpp : 0 < p
          · rw [Main.deadline_eval_pos T R allocs ops start due p hR hp hpp]
            simp [hR]
          · rw [Main.deadline_eval_nonpos T R allocs ops start due p hR hp hpp]
            simp [hR]
    · intro _ p hp hpp
      rw [Main.deadline_eval_pos T R allocs ops start due p hR hp hpp]
      cases hmax : Main.pyMax ((allocs.filter (fun a =>
          decide (some a.opName = (ops.getLast?).map (fun o => o.name)))).map
          (fun a => a.hourEnd)) with
      | none =>
          refine ⟨start, Or.inl ⟨Main.pyMax_eq_none _ hmax, rfl⟩, rfl, ?_,
            (intCeilDiv_spec (R - T) p hpp).1, (intCeilDiv_spec (R - T) p hpp).2⟩
          exact ⟨of_decide_eq_true, decide_eq_true⟩
      | some b =>
          obtain ⟨hbmem, hbub⟩ := Main.pyMax_spec _ b hmax
          refine ⟨b, Or.inr ⟨hbmem, hbub⟩, rfl, ?_,
            (intCeilDiv_spec (R - T) p hpp).1, (intCeilDiv_spec (R - T) p hpp).2⟩
          exact ⟨of_decide_eq_true, decide_eq_true⟩
    · intro _ hdisj
      rcases hdisj with hnone | ⟨p, hp, hple⟩
      · rw [Main.deadline_eval_none T R allocs ops start due hR hnone]
        exact ⟨rfl, rfl⟩
      · rw [Main.deadline_eval_nonpos T R allocs ops start due p hR hp
          (by omega)]
        exact ⟨rfl, rfl⟩

/-- Witness for C6: a covered order needs no estimate. -/
theorem claim_C6_deadline_evaluation_witness :
    (Main.deadline_eval 10 5 [] [] 0 0).expected_completion = none ∧
    (Main.deadline_eval 10 5 [] [] 0 0).meets_due_estimate = true :=
  (claim_C6_deadline_evaluation 10 5 [] [] 0 0).2.1 (by norm_num)

/-- C7: the yield adjustment of `ui_create_order` (`app/main.py`).  For a
positive quantity, a present positive yield percentage gives
`required_input = ⌈quantity / (yield / 100)⌉`; in particular
`required_input 500 98.5 = 508` and a yield of 100 returns the quantity
unchanged; an absent or non-positive yield returns the quantity. -/
theorem claim_C7_yield_adjustment (q : Int) (_hq : 0 < q) :
    (∀ y : ℚ, 0 < y →
      Main.required_input_calc q (some y) = Int.ceil ((q : ℚ) / (y / 100))) ∧
    Main.required_input_calc 500 (some (197/2)) = 508 ∧
    Main.required_input_calc q (some 100) = q ∧
    Main.required_input_calc q none = q ∧
    (∀ y : ℚ, y ≤ 0 → Main.required_input_calc q (some y) = q) := by
  refine ⟨?_, ?_, ?_, rfl, ?_⟩
  · intro y hy
    unfold Main.required_input_calc
    dsimp only
    rw [if_pos hy]
  · unfold Main.required_input_calc
    dsimp only
    rw [if_pos (by norm_num : (0:ℚ) < 197/2)]
    have e : ((500 : Int) : ℚ) / ((197/2 : ℚ) / 100) = 100000/197 := by
      norm_num
    rw [e, Int.ceil_eq_iff]
    norm_num
  · unfold Main.required_input_calc
    dsimp only
    rw [if_pos (by norm_num : (0:ℚ) < 100)]
    rw [show ((100 : ℚ) / 100) = 1 by norm_num, div_one, Int.ceil_intCast]
  · intro y hy
    unfold Main.required_input_calc
    dsimp only
    rw [if_neg (not_lt.mpr hy)]

/-- Witness for C7: concrete yield computations. -/
theorem claim_C7_yield_adjustment_witness :
    Main.required_input_calc 500 (some (197/2)) = 508 ∧
    Main.required_input_calc 500 (some 100) = 500 ∧
    Main.required_input_calc 500 none = 500 ∧
    Main.required_input_calc 500 (some (-5)) = 500 ∧
    Main.required_input_calc 500 (some 40) =
      Int.ceil ((500 : ℚ) / ((40 : ℚ) / 100)) :=
  ⟨(claim_C7_yield_adjustment 500 (by norm_num)).2.1,
   (claim_C7_yield_adjustment 500 (by norm_num)).2.2.1,
   (claim_C7_yield_adjustment 500 (by norm_num)).2.2.2.1,
   (claim_C7_yield_adjustment 500 (by norm_num)).2.2.2.2 (-5) (by norm_num),
   (claim_C7_yield_adjustment 500 (by norm_num)).1 40 (by norm_num)⟩

/-- C8 counterexample: the claim's DAY window `[08:00, 19:00)` does not
hold for the classifier in `core/scheduler.py` — at 19:30 (minute 1170)
it returns DAY, while the pipelined scheduler's classifier returns
NIGHT. -/
theorem claim_C8_boundary_counterexample :
    Core.get_shift_for_hour 1170 = Shift.day ∧
    App.get_shift_for_hour 1170 = Shift.night :=
  ⟨by decide, by decide⟩

/-- C8 (amended): both shift classifiers are pure and total, mapping
every instant to one of the two shifts; `app/scheduler.py`'s classifier
returns DAY exactly on local wall-clock `[08:00, 19:00)` (so 19:00–20:00
is NIGHT there), but `core/scheduler.py`'s classifier returns DAY exactly
on `[08:00, 20:00)`, classifying the 19:00–20:00 boundary hour as DAY. -/
theorem claim_C8_shift_classification (t : Int) :
    (App.get_shift_for_hour t = Shift.day ∨
      App.get_shift_for_hour t = Shift.night) ∧
    (App.get_shift_for_hour t = Shift.day ↔
      480 ≤ timeOfDay t ∧ timeOfDay t < 1140) ∧
    (Core.get_shift_for_hour t = Shift.day ↔
      480 ≤ timeOfDay t ∧ timeOfDay t < 1200) := by
  have h0 : 0 ≤ timeOfDay t := Int.emod_nonneg t (by norm_num)
  have h1 : timeOfDay t < 1440 := Int.emod_lt_of_pos t (by norm_num)
  refine ⟨?_, ?_, ?_⟩
  · unfold App.get_shift_for_hour
    split
    · exact Or.inl rfl
    · exact Or.inr rfl
  · unfold App.get_shift_for_hour App.is_day_shift
    split
    next h =>
      constructor
      · intro _
        simpa using h
      · intro _
        rfl
    next h =>
      constructor
      · intro hh
        exact Shift.noConfusion hh
      · intro hcond
        exact absurd (by simpa using hcond) h
  · unfold Core.get_shift_for_hour
    split
    next h =>
      constructor
      · intro _
        omega
      · intro _
        rfl
    next h =>
      constructor
      · intro hh
        exact Shift.noConfusion hh
      · intro hcond
        exact absurd (by omega : 8 ≤ timeOfDay t / 60 ∧
          timeOfDay t / 60 < 20) h

/-- C9: monotone progress of the pipelined scheduler.  With start,
quantity, operations and capacity function fixed, extending the due
instant never decreases `total_allocated`. -/
theorem claim_C9_window_monotone (start qty : Int)
    (operations : List App.OpInfo) (cap : String → Int → Int)
    (due₁ due₂ : Int) (h : due₁ ≤ due₂) :
    (App.schedule_order_operations start due₁ qty operations
        cap).total_allocated ≤
      (App.schedule_order_operations start due₂ qty operations
        cap).total_allocated := by
  rw [App.schedule_total_eq, App.schedule_total_eq]
  cases hlast : (operations.map (fun o => o.name)).getLast? with
  | none => exact le_refl 0
  | some nm =>
      dsimp only
      by_cases hnm : nm = ""
      · rw [if_pos hnm, if_pos hnm]
      · rw [if_neg hnm, if_neg hnm]
        exact App.simHours_processed_mono cap qty
          (operations.map (fun o => o.name))
          (App.numHours (floorHour start) due₁)
          (App.numHours (floorHour start) due₂)
          (App.numHours_mono (floorHour start) due₁ due₂ h)
          (floorHour start) App.initState nm

/-- Witness for C9: one operation at 4 pieces per hour, one versus two
hours. -/
theorem claim_C9_window_monotone_witness :
    (App.schedule_order_operations 0 60 10 [⟨"a", none⟩]
        (fun _ _ => 4)).total_allocated ≤
      (App.schedule_order_operations 0 120 10 [⟨"a", none⟩]
        (fun _ _ => 4)).total_allocated :=
  claim_C9_window_monotone 0 10 [⟨"a", none⟩] (fun _ _ => 4) 60 120
    (by norm_num)

/-- C10: the batch scheduler in `core/scheduler.py` — the implementation
imported by `app/main.py` — returns `total_allocated = required_input ×
number of operations` for every non-empty operations list and
`required_input ≥ 0`, independent of start, due and the capacity
function's per-hour values; its loop is driven by the quantity alone, so
allocation records can extend past `due` (second conjunct: a record
ending after `due = 0`). -/
theorem claim_C10_core_batch_total (start due required : Int)
    (operations : List App.OpInfo) (cap : String → Int → Int)
    (hne : operations ≠ []) (hreq : 0 ≤ required) :
    (Core.schedule_order_operations start due required operations
        cap).total_allocated = required * operations.length ∧
    ∃ a ∈ (Core.schedule_order_operations 0 0 1 [⟨"z", none⟩]
        (fun _ _ => 1)).allocations, (0 : Int) < a.hourEnd :=
  ⟨Core.coreSchedule_total start due required operations cap hne hreq,
    by decide⟩

/-- Witness for C10: two operations, five required units. -/
theorem claim_C10_core_batch_total_witness :
    (Core.schedule_order_operations 0 600 5
        [⟨"x", none⟩, ⟨"y", none⟩] (fun _ _ => 7)).total_allocated = 10 := by
  have h := (claim_C10_core_batch_total 0 600 5 [⟨"x", none⟩, ⟨"y", none⟩]
    (fun _ _ => 7) (by decide) (by norm_num)).1
  simpa using h
